import Mathlib

/-!
Shallow embedding of the `avance` progress-bar library core
(`crates/avance/src/bar.rs`, `format.rs`, `style.rs`) and verification of
the frozen claims about it.

Modelling conventions:
* Machine integers (`u64`, `usize`, `u16`) are modelled as `Nat`.  The one
  place the machine width matters is the saturating float-to-integer
  `as usize` cast, modelled with an explicit `usizeMax` bound.
* `f64` values are carried as exact fractions (`Frac`), with the
  exceptional values `NaN`, `+inf`, `-inf` as explicit constructors of
  `FQ` and the IEEE-754 rules for the operations the source performs on
  them.  Multiplication — the operation whose rounding can move the
  glyph count across an integer boundary — is modelled with the true
  IEEE round-to-nearest-even to 53 significant bits (`roundF64`; all
  values the source forms stay inside the normal f64 range, so overflow
  and subnormals cannot arise).  Division (`n/elapsed`, `it/total`,
  `format_sizeof`'s `/1000`) and the single subtraction `1.0 - pct` are
  kept exact: no theorem below depends on a finite value of those
  operations at an input where the sub-ulp error could change a
  comparison or a printed digit.  Integer-to-f64 casts are exact for the
  magnitudes involved (`< 2^53`).
* Real time is abstracted: each `update` call carries a boolean telling
  whether `last.elapsed() >= interval` held at that call, and the elapsed
  time a draw observes is a state field.
* Code paths that can panic return `Option` (`none` = panic).
-/

/-- `usize::MAX` on the 64-bit targets the crate supports. -/
def usizeMax : ℕ := 2 ^ 64 - 1

/-! ## Exact finite `f64` values -/

/-- A finite `f64` value, kept as an exact unnormalized fraction.  Every
`Frac` built by the embedding has a positive denominator. -/
structure Frac where
  num : ℤ
  den : ℕ
deriving DecidableEq

/-- Embed a machine integer (`u64 as f64`, `usize as f64`, ...). -/
def Frac.ofNat (n : ℕ) : Frac := ⟨n, 1⟩

/-- Exact product of finite values. -/
def Frac.mul (a b : Frac) : Frac := ⟨a.num * b.num, a.den * b.den⟩

/-- Exact sum of finite values. -/
def Frac.add (a b : Frac) : Frac := ⟨a.num * b.den + b.num * a.den, a.den * b.den⟩

/-- Exact difference of finite values. -/
def Frac.sub (a b : Frac) : Frac := ⟨a.num * b.den - b.num * a.den, a.den * b.den⟩

/-- Reciprocal; callers divide only by nonzero values. -/
def Frac.inv (b : Frac) : Frac :=
  if 0 ≤ b.num then ⟨(b.den : ℤ), b.num.toNat⟩ else ⟨-(b.den : ℤ), (-b.num).toNat⟩

/-- Exact quotient of finite values (divisor nonzero at every call site). -/
def Frac.div (a b : Frac) : Frac := a.mul b.inv

/-- Value-level strict order on finite values (positive denominators). -/
def Frac.lt (a b : Frac) : Prop := a.num * (b.den : ℤ) < b.num * (a.den : ℤ)

instance (a b : Frac) : Decidable (a.lt b) :=
  inferInstanceAs (Decidable (_ < _))

/-- Value-level equality test on finite values (positive denominators). -/
def Frac.veq (a b : Frac) : Prop := a.num * (b.den : ℤ) = b.num * (a.den : ℤ)

instance (a b : Frac) : Decidable (a.veq b) :=
  inferInstanceAs (Decidable (_ = _))

/-- Rust's saturating `as usize` cast of a finite `f64`: truncate toward
zero, negatives to 0, and saturate at `usize::MAX`. -/
def Frac.castNat (f : Frac) : ℕ :=
  if f.num ≤ 0 then 0 else min (f.num.toNat / f.den) usizeMax

/-- The rational number a `Frac` denotes (for specification only). -/
def Frac.val (f : Frac) : ℚ := (f.num : ℚ) / (f.den : ℚ)

/-! ## IEEE-754 round to nearest, ties to even -/

/-- Fuel-driven binary logarithm (structural, so the kernel can evaluate
it; the fuel `n` always suffices for input `n`). -/
def lg2F : ℕ → ℕ → ℕ
  | 0, _ => 0
  | fuel + 1, n => if n < 2 then 0 else lg2F fuel (n / 2) + 1

/-- `⌊log₂ n⌋` (0 at 0). -/
def lg2 (n : ℕ) : ℕ := lg2F n n

/-- Round `num/den` (with `den > 0`) to the nearest integer, ties to
even: the rounding step of both IEEE arithmetic and Rust's float
formatting. -/
def rheID (num : ℤ) (den : ℕ) : ℤ :=
  let q0 := num.fdiv den
  let r2 := 2 * (num - q0 * den)
  if r2 < den then q0 else if (den : ℤ) < r2 then q0 + 1 else if q0 % 2 = 0 then q0 else q0 + 1

/-- The scaling shift for `a/b < 2^53`: a `p` with
`b·2^52 ≤ a·2^p < b·2^53`, placing `a·2^p/b` in the 53-bit binade. -/
def normP (a b : ℕ) : ℕ :=
  let p0 := (52 + lg2 b) - lg2 a
  if b * 2 ^ 52 ≤ a * 2 ^ p0 then p0 else p0 + 1

/-- The scaling shift for `a/b ≥ 2^53`: a `p` with
`b·2^(p+52) ≤ a < b·2^(p+53)`. -/
def normQ (a b : ℕ) : ℕ :=
  let p0 := (lg2 a - lg2 b) - 52
  if b * 2 ^ (p0 + 52) ≤ a then p0 else p0 - 1

/-- Round the positive rational `a/b` (`a, b ≥ 1`) to the nearest
(ties-to-even) value with 53 significant bits — the IEEE-754 binary64
rounding, for inputs inside the normal range. -/
def roundPosF64 (a b : ℕ) : Frac :=
  if a < b * 2 ^ 53 then
    ⟨rheID ((a * 2 ^ normP a b : ℕ) : ℤ) b, 2 ^ normP a b⟩
  else
    ⟨rheID (a : ℤ) (b * 2 ^ normQ a b) * 2 ^ normQ a b, 1⟩

/-- Correctly-rounded conversion of an exact value to `f64` (normal
range; zero and sign handled separately). -/
def roundF64 (f : Frac) : Frac :=
  if f.num = 0 then ⟨0, 1⟩
  else if 0 < f.num then roundPosF64 f.num.toNat f.den
  else ⟨-(roundPosF64 (-f.num).toNat f.den).num, (roundPosF64 (-f.num).toNat f.den).den⟩

/-! ## `f64` with its exceptional values -/

/-- An `f64` as the source manipulates it: exact finite value, an
infinity, or `NaN`. -/
inductive FQ where
  | fin (f : Frac)
  | posInf
  | negInf
  | nan
deriving DecidableEq

/-- IEEE division of two finite values: `0.0/0.0 = NaN`, `x/0.0 = ±inf`
for `x ≠ 0`, exact quotient otherwise. -/
def fqDiv (a b : Frac) : FQ :=
  if b.num = 0 then
    if a.num = 0 then .nan else if 0 < a.num then .posInf else .negInf
  else .fin (a.div b)

/-- Rust's `f64::clamp(0.0, 1.0)`: `NaN` propagates, infinities clamp to
the bounds, finite values are clamped. -/
def FQ.clamp01 : FQ → FQ
  | .fin f => if Frac.lt f ⟨0, 1⟩ then .fin ⟨0, 1⟩ else if Frac.lt ⟨1, 1⟩ f then .fin ⟨1, 1⟩ else .fin f
  | .posInf => .fin ⟨1, 1⟩
  | .negInf => .fin ⟨0, 1⟩
  | .nan => .nan

/-- IEEE multiplication: finite × finite forms the exact product and
rounds it to the nearest binary64 (`roundF64`); the exceptional values
follow the IEEE sign and `NaN` rules. -/
def fqMulFF : FQ → FQ → FQ
  | .nan, _ => .nan
  | _, .nan => .nan
  | .fin a, .fin b => .fin (roundF64 (a.mul b))
  | .fin a, .posInf => if a.num = 0 then .nan else if 0 < a.num then .posInf else .negInf
  | .fin a, .negInf => if a.num = 0 then .nan else if 0 < a.num then .negInf else .posInf
  | .posInf, .fin b => if b.num = 0 then .nan else if 0 < b.num then .posInf else .negInf
  | .negInf, .fin b => if b.num = 0 then .nan else if 0 < b.num then .negInf else .posInf
  | .posInf, .posInf => .posInf
  | .posInf, .negInf => .negInf
  | .negInf, .posInf => .negInf
  | .negInf, .negInf => .posInf

/-- IEEE division of a finite value by an arbitrary `f64`. -/
def fqDivFr (a : Frac) : FQ → FQ
  | .fin b => fqDiv a b
  | .posInf => .fin ⟨0, 1⟩
  | .negInf => .fin ⟨0, 1⟩
  | .nan => .nan

/-- IEEE subtraction of an arbitrary `f64` from a finite value. -/
def fqSubFr (a : Frac) : FQ → FQ
  | .fin b => .fin (a.sub b)
  | .posInf => .negInf
  | .negInf => .posInf
  | .nan => .nan

/-- Rust's saturating `as usize` cast: `NaN → 0`, `-inf → 0`,
`+inf → usize::MAX`. -/
def fqCastNat : FQ → ℕ
  | .fin f => f.castNat
  | .posInf => usizeMax
  | .negInf => 0
  | .nan => 0

/-! ## Format utilities (`format.rs`) -/

/-- Zero-padded two-digit decimal, Rust's `format!("{:02}", n)`. -/
def zp2 (n : ℕ) : String :=
  if n < 10 then "0" ++ Nat.repr n else Nat.repr n

/-- `format_time` from `format.rs`, char-identical to the `ftime` closure
in `State::fmt`: `MM:SS` under one hour, else `HH:MM:SS`. -/
def format_time (seconds : ℕ) : String :=
  let m := seconds / 60 % 60
  let s := seconds % 60
  match seconds / 3600 with
  | 0 => zp2 m ++ ":" ++ zp2 s
  | h => zp2 h ++ ":" ++ zp2 m ++ ":" ++ zp2 s

/-- Decimal digits of `m` left-padded with zeros to width `d`. -/
def padZeros (d : ℕ) (m : ℕ) : String :=
  let s := Nat.repr m
  String.mk (List.replicate (d - s.length) '0') ++ s

/-- Rust's `format!("{:.d$}", f)` on a finite value: fixed-point with `d`
fractional digits (no decimal point when `d = 0`). -/
def fmtFixed (d : ℕ) (f : Frac) : String :=
  let n := rheID (f.num * (10 ^ d : ℕ)) f.den
  let a := n.natAbs
  let core :=
    if d = 0 then Nat.repr a
    else Nat.repr (a / 10 ^ d) ++ "." ++ padZeros d (a % 10 ^ d)
  if n < 0 then "-" ++ core else core

/-- `format!("{:.02}", x)` on an arbitrary `f64` (`it/s` in the bar line). -/
def fmtFQ2 : FQ → String
  | .fin f => fmtFixed 2 f
  | .posInf => "inf"
  | .negInf => "-inf"
  | .nan => "NaN"

/-- The loop of `format_sizeof`: try each SI suffix in turn, dividing by
1000 while the value is at least 999.5. -/
def sizeofGo (num : Frac) : List String → String
  | [] => fmtFixed 1 num ++ "Y"
  | u :: rest =>
    if Frac.lt num ⟨9995, 10⟩ then
      if Frac.lt num ⟨9995, 100⟩ then
        if Frac.lt num ⟨9995, 1000⟩ then fmtFixed 2 num ++ u
        else fmtFixed 1 num ++ u
      else fmtFixed 0 num ++ u
    else sizeofGo (num.div (Frac.ofNat 1000)) rest

/-- `format_sizeof` from `format.rs`. -/
def format_sizeof (num : ℕ) : String :=
  sizeofGo (Frac.ofNat num) ["", "k", "M", "G", "T", "P", "E", "Z"]

/-! ## Style catalogue (`style.rs`) -/

/-- `Style` from `style.rs` (the `Custom` variant is the one
`AvanceBar::set_style_str` constructs in `bar.rs`). -/
inductive Style where
  | ASCII
  | Block
  | Balloon
  | Custom (s : String)
deriving DecidableEq

/-- The glyph string of a style: the `strum(serialize = ...)` attribute
read back by `style.as_ref()`. -/
def Style.asRefStr : Style → String
  | .ASCII => " 0123456789#"
  | .Block => "  ▏▎▍▌▋▊▉█"
  | .Balloon => " .oO@*"
  | .Custom s => s

/-! ## The line formatter (`State::fmt` in `bar.rs`) -/

/-- The glyph-alphabet split in `State::fmt`: `style[0]` is the filled
glyph, `style[1..].split_last()` yields the background glyph and the
in-progress glyphs.  `none` models the panics on styles shorter than two
characters. -/
def styleParse (s : String) : Option (Char × List Char × Char) :=
  match s.toList with
  | [] => none
  | [_] => none
  | f :: c :: cs => some (f, (c :: cs).dropLast, (c :: cs).getLast (List.cons_ne_nil c cs))

/-- The bar-glyph region built in the bounded branch of `State::fmt`.
`none` models the division-by-zero panic when the style has no
in-progress glyphs. -/
def barGlyphs (filled : Char) (inProg : List Char) (bg : Char) (limit : ℕ) (pct : FQ) :
    Option (List Char) :=
  match inProg with
  | [] => none
  | g0 :: gs =>
    let m := gs.length + 1
    let n := fqCastNat (fqMulFF (fqMulFF (FQ.fin (Frac.ofNat limit)) pct) (FQ.fin (Frac.ofNat m)))
    let nFilled := n / m
    let bar := List.replicate nFilled filled
    let bar :=
      if nFilled < limit then
        bar ++ [(g0 :: gs).get ⟨n % m, Nat.mod_lt _ (Nat.succ_pos gs.length)⟩]
      else bar
    if nFilled + 1 < limit then some (bar ++ List.replicate (limit - nFilled - 1) bg)
    else some bar

/-- The data `State::fmt` reads: counter, bound, elapsed seconds
(`last - begin`), configuration, and the terminal width returned by
`terminal::size()` (80 on failure). -/
structure DState where
  n : ℕ
  total : Option ℕ
  elapsed : Frac
  desc : Option String
  postfixText : Option String
  width : Option ℕ
  termWidth : ℕ
  styleStr : String

/-- `desc.map_or("", |d| format!("{}: ", d))`. -/
def descStr : Option String → String
  | none => ""
  | some d => d ++ ": "

/-- `postfix.map_or("", |p| format!(", {}", p))`. -/
def postText : Option String → String
  | none => ""
  | some p => ", " ++ p

/-- Effective width: `config.width.map_or(terminal_width, |w| min(w, terminal_width))`. -/
def widthOf : Option ℕ → ℕ → ℕ
  | none, tw => tw
  | some w, tw => min w tw

/-- Rust's `format!("{:>3}", s)`. -/
def rjust3 (s : String) : String :=
  String.mk (List.replicate (3 - s.length) ' ') ++ s

/-- `let its = it as f64 / elapsed;` — the rate `State::fmt` displays. -/
def rateOf (s : DState) : FQ := fqDiv (Frac.ofNat s.n) s.elapsed

/-- `(it as f64 / total as f64).clamp(0.0, 1.0)`. -/
def pctOf (it total : ℕ) : FQ := (fqDiv (Frac.ofNat it) (Frac.ofNat total)).clamp01

/-- `(100.0 * pct) as usize` — the displayed percentage. -/
def percentOfPct (pct : FQ) : ℕ := fqCastNat (fqMulFF (FQ.fin (Frac.ofNat 100)) pct)

/-- The ETA field: `"?"` when `it == 0`, else
`ftime((elapsed / pct * (1. - pct)) as usize)`. -/
def etaOf (it : ℕ) (elapsed : Frac) (pct : FQ) : String :=
  match it with
  | 0 => "?"
  | _ + 1 => format_time (fqCastNat (fqMulFF (fqDivFr elapsed pct) (fqSubFr (Frac.ofNat 1) pct)))

/-- The unbounded line up to and including the closing bracket:
`"{desc}{it}it [{time}, {its:.02}it/s]"`. -/
def unboundedCore (s : DState) : String :=
  descStr s.desc ++ Nat.repr s.n ++ "it [" ++ format_time s.elapsed.castNat ++ ", " ++
    fmtFQ2 (rateOf s) ++ "it/s]"

/-- `State::fmt`: the full rendered line.  `none` models the panics on
styles shorter than two glyphs. -/
def renderLine (s : DState) : Option String :=
  match s.total with
  | none => some (unboundedCore s ++ postText s.postfixText)
  | some total =>
    let pct := pctOf s.n total
    let lBar := descStr s.desc ++ rjust3 (Nat.repr (percentOfPct pct)) ++ "%|"
    let rBar := "| " ++ Nat.repr s.n ++ "/" ++ Nat.repr total ++ " [" ++
      format_time s.elapsed.castNat ++ "<" ++ etaOf s.n s.elapsed pct ++ ", " ++
      fmtFQ2 (rateOf s) ++ "it/s" ++ postText s.postfixText ++ "]"
    let limit := widthOf s.width s.termWidth - (lBar.utf8ByteSize + rBar.utf8ByteSize)
    (styleParse s.styleStr).bind fun fpb =>
      (barGlyphs fpb.1 fpb.2.1 fpb.2.2 limit pct).map fun bar =>
        lBar ++ String.mk bar ++ rBar

/-- Modelled from the spec (§4.3), for comparison with the code: the
smoothed rate `0.7·(n/elapsed) + 0.3·((n − last_n)/Δt_last)`, falling
back to the cumulative average when `n == last_n`. -/
def specSmoothedRate (n lastN elapsed dtLast : Frac) : Frac :=
  if n.veq lastN then n.div elapsed
  else (Frac.mul ⟨7, 10⟩ (n.div elapsed)).add (Frac.mul ⟨3, 10⟩ ((n.sub lastN).div dtLast))

/-! ## The registry (`NEXTID` / `POSITIONS` statics in `bar.rs`) -/

/-- The `HashMap<ID, Pos>` of live bars, as an association list with
unique keys. -/
abbrev Registry := List (ℕ × ℕ)

/-- `positions.get(&id)`. -/
def lookup (id : ℕ) : Registry → Option ℕ
  | [] => none
  | (i, p) :: t => if i = id then some p else lookup id t

/-- `positions.values().max()`. -/
def maxVal : List ℕ → Option ℕ
  | [] => none
  | x :: xs =>
    match maxVal xs with
    | none => some x
    | some m => some (max x m)

/-- `positions.values().max().map(|n| n + 1).unwrap_or(0)`: the row given
to a new bar.  `Pos` is `u16`, so the `n + 1` wraps modulo `2^16` in
release builds (it panics in debug builds; either way the contiguity
invariant is lost once `2^16` bars are live — we model the wrap). -/
def nextPosOf (l : Registry) : ℕ :=
  match maxVal (l.map Prod.snd) with
  | none => 0
  | some m => (m + 1) % 2 ^ 16

/-- The global registry state: the `NEXTID` allocator plus `POSITIONS`. -/
structure RegSt where
  nextId : ℕ
  positions : Registry

/-- `next_free_pos` from `bar.rs`: allocate a fresh id and insert it at
row `max(existing rows) + 1` (or 0 when the map is empty). -/
def next_free_pos (σ : RegSt) : RegSt :=
  { nextId := σ.nextId + 1,
    positions := (σ.nextId, nextPosOf σ.positions) :: σ.positions }

/-- `reposition` from `bar.rs`: remove the closed bar's entry and
decrement every row strictly below it.  The source `unwrap`s the lookup;
`State::close` only calls it on a live id, and the absent case is kept as
a no-op so the function is total. -/
def reposition (id : ℕ) (l : Registry) : Registry :=
  match lookup id l with
  | none => l
  | some p =>
    (l.filter fun e => e.1 ≠ id).map fun e => (e.1, if p < e.2 then e.2 - 1 else e.2)

/-- The registry states reachable by interleaving bar creations
(`next_free_pos`) and closes of live bars (`reposition`, guarded by
`State::drawable` as in `State::close`). -/
inductive Reach : RegSt → Prop where
  | init : Reach ⟨0, []⟩
  | create {σ : RegSt} : Reach σ → Reach (next_free_pos σ)
  | close {σ : RegSt} {id : ℕ} : Reach σ → (lookup id σ.positions).isSome = true →
      Reach ⟨σ.nextId, reposition id σ.positions⟩

/-- The interleavings in which every creation happens with fewer than
`2^16` bars live — the regime in which the `u16` row counter cannot
wrap. -/
inductive ReachCap : RegSt → Prop where
  | init : ReachCap ⟨0, []⟩
  | create {σ : RegSt} : ReachCap σ → σ.positions.length < 2 ^ 16 →
      ReachCap (next_free_pos σ)
  | close {σ : RegSt} {id : ℕ} : ReachCap σ → (lookup id σ.positions).isSome = true →
      ReachCap ⟨σ.nextId, reposition id σ.positions⟩

/-! ## Progress counters (`State::update` / `State::force_update`) -/

/-- The counter fields of `State`: committed count `n`, pending `cached`
steps, and the optional bound `total`. -/
structure BarCounter where
  n : ℕ
  cached : ℕ
  total : Option ℕ
deriving DecidableEq

/-- `State::force_update`: commit the cached steps, clamping at `total`
when one is set. -/
def BarCounter.force_update (s : BarCounter) : BarCounter :=
  { s with
    n := match s.total with
      | some t => min t (s.n + s.cached)
      | none => s.n + s.cached,
    cached := 0 }

/-- `State::update(k)`.  `intervalElapsed` is the oracle for
`last.elapsed().as_secs_f64() >= config.interval` at this call (after
`force_update` both branches coincide, since `cached` is already 0). -/
def BarCounter.update (s : BarCounter) (k : ℕ) (intervalElapsed : Bool) : BarCounter :=
  let s1 := { s with cached := s.cached + k }
  match s1.total with
  | some t =>
    if t ≤ s1.n then s1
    else
      let s2 := if t ≤ s1.n + s1.cached then s1.force_update else s1
      if intervalElapsed then { s2 with n := s2.n + s2.cached, cached := 0 } else s2
  | none =>
    if intervalElapsed then { s1 with n := s1.n + s1.cached, cached := 0 } else s1

/-- Run a sequence of `update` calls (step count, interval oracle). -/
def runUpdates (s : BarCounter) : List (ℕ × Bool) → BarCounter
  | [] => s
  | (k, b) :: rest => runUpdates (s.update k b) rest

/-- The total number of steps a sequence of updates reports. -/
def sumUpdates (us : List (ℕ × Bool)) : ℕ := (us.map Prod.fst).sum

/-- The side condition of the amended claim C2: the reported steps fit
under the bound when one is set. -/
def sumTotOk (tot : Option ℕ) (us : List (ℕ × Bool)) : Prop :=
  match tot with
  | none => True
  | some t => sumUpdates us ≤ t

instance (tot : Option ℕ) (us : List (ℕ × Bool)) : Decidable (sumTotOk tot us) := by
  unfold sumTotOk
  exact match tot with
  | none => inferInstance
  | some _ => inferInstance

/-! ## Draw, clear and close (`State::draw` / `State::close`) -/

/-- The queued terminal commands (`crossterm` capability calls). -/
inductive TermOp where
  | print (s : String)
  | moveUp (k : ℕ)
  | moveToColumn (c : ℕ)
deriving DecidableEq

/-- The whole mutable world `State::close` touches: the bar's `State`
fields, the global registry, the terminal environment and the queued
output.  `nowElapsed` is the wall-clock elapsed time `Instant::now()`
would observe during this call (written into `elapsed` by
`force_update`'s `self.last = Instant::now()`). -/
structure Sys where
  tty : Bool
  tcols : ℕ
  trows : ℕ
  nrowsCap : ℕ
  reg : Registry
  out : List TermOp
  id : ℕ
  n : ℕ
  cached : ℕ
  total : Option ℕ
  elapsed : Frac
  nowElapsed : Frac
  desc : Option String
  postfixText : Option String
  width : Option ℕ
  styleStr : String
deriving DecidableEq

/-- `nrows()`: the `NROWS` cap (0 = unset) combined with the terminal
height. -/
def nrowsOf (σ : Sys) : ℕ :=
  if σ.nrowsCap ≠ 0 then min σ.nrowsCap σ.trows else σ.trows

/-- Rust's `format!("{:1$}", msg, ncols)`: left-aligned, space-padded to
at least `w` characters. -/
def padTo (w : ℕ) (s : String) : String :=
  s ++ String.mk (List.replicate (w - s.length) ' ')

/-- `State::drawable`: the destination is a TTY and the bar still has a
row in the registry. -/
def Sys.drawable (σ : Sys) : Bool := σ.tty && (lookup σ.id σ.reg).isSome

/-- The `DState` view `State::fmt` reads from a `Sys`. -/
def Sys.dstate (σ : Sys) : DState :=
  ⟨σ.n, σ.total, σ.elapsed, σ.desc, σ.postfixText, σ.width, σ.tcols, σ.styleStr⟩

/-- `State::force_update` acting on the full system state. -/
def Sys.force_update (σ : Sys) : Sys :=
  { σ with
    n := match σ.total with
      | some t => min t (σ.n + σ.cached)
      | none => σ.n + σ.cached,
    cached := 0,
    elapsed := σ.nowElapsed }

/-- `State::draw(Some(pos))`: the terminal commands it queues (`some []`
when it returns without output; `none` when formatting panics). -/
def drawAt (σ : Sys) (pos : ℕ) : Option (List TermOp) :=
  if σ.drawable = false then some []
  else if nrowsOf σ ≤ pos then some []
  else
    (if pos = nrowsOf σ - 1 then some "... (more hidden) ..." else renderLine σ.dstate).map
      fun m0 =>
        let msg := padTo σ.tcols m0
        if pos ≠ 0 then
          [TermOp.print (String.mk (List.replicate pos '\n')), TermOp.print msg,
            TermOp.moveUp pos, TermOp.moveToColumn σ.tcols]
        else [TermOp.moveToColumn 0, TermOp.print msg]

/-- `State::close`: no-op unless drawable; otherwise force-commit the
counter (unless already exactly at `total`), draw once at row 0, release
the row (repositioning survivors), and emit the trailing newline plus,
when bars remain live, the column restore. -/
def closeOp (σ : Sys) : Option Sys :=
  if σ.drawable = false then some σ
  else
    let σ1 := if (match σ.total with | some t => t == σ.n | none => false : Bool) then σ
      else σ.force_update
    match drawAt σ1 0 with
    | none => none
    | some ops =>
      let reg2 := reposition σ1.id σ1.reg
      let tail := if reg2.isEmpty then [] else [TermOp.moveToColumn σ1.tcols]
      some { σ1 with reg := reg2, out := σ1.out ++ ops ++ [TermOp.print "\n"] ++ tail }

/-! ## `AvanceBar::set_interval` -/

/-- The interval value `AvanceBar::set_interval` stores.  The source
guard is `interval.is_sign_positive()`; on the rationals (no `-0.0`, no
`NaN`) the sign bit is clear exactly when `0 ≤ interval`, and in
particular `+0.0` (here `0`) is sign-positive. -/
def set_interval (interval : ℚ) : ℚ :=
  if 0 ≤ interval then interval else 1 / 15

/-! ## Theorems -/

/-- Claim C7: `format_sizeof` produces the SI-scaled forms stated by the
spec (thresholds 9.995 / 99.95 / 999.5): `10 → "10.0"`, `1234 → "1.23k"`,
`12345 → "12.3k"`, `1234000 → "1.23M"`, `999000000 → "999M"`,
`999999000 → "1.00G"`. -/
theorem C7_format_sizeof_values :
    format_sizeof 10 = "10.0" ∧ format_sizeof 1234 = "1.23k" ∧
    format_sizeof 12345 = "12.3k" ∧ format_sizeof 1234000 = "1.23M" ∧
    format_sizeof 999000000 = "999M" ∧ format_sizeof 999999000 = "1.00G" := by
  decide

/-- Claim C3 (code bug): the glyph string of the ASCII preset is
`" 0123456789#"`, not `"#0123456789 "` as the claim states; since
`State::fmt` takes the first character as the filled glyph and the last
as the background glyph (second conjunct: `styleParse` returns
filled `' '`, in-progress `'0'..'9'`, background `'#'`), the code as
written fills ASCII bars with spaces, contradicting `style.rs`'s own
`Presentation: |######7 ... |` doc comments and the
`AvanceBar::with_style_str` example in `bar.rs`. -/
theorem C3_ascii_glyph_string :
    Style.asRefStr .ASCII = " 0123456789#" ∧
    styleParse (Style.asRefStr .ASCII) =
      some (' ', ['0', '1', '2', '3', '4', '5', '6', '7', '8', '9'], '#') ∧
    Style.asRefStr .ASCII ≠ "#0123456789 " := by
  decide

/-- Claim C9 (code bug): `set_interval(0.0)` stores `0.0`, not the 1/15 s
default, because `f64::is_sign_positive(+0.0)` is true — contradicting
the claim, the spec, and the method's own doc comment ("Only positive
intervals are allowed"). -/
theorem C9_zero_interval_stored :
    set_interval 0 = 0 ∧ (0 : ℚ) ≠ 1 / 15 := by
  norm_num [set_interval]

theorem update_step_sum (s : BarCounter) (k : ℕ) (b : Bool)
    (hinv : ∀ t, s.total = some t → s.n ≤ t)
    (hle : ∀ t, s.total = some t → s.n + s.cached + k ≤ t) :
    (s.update k b).n + (s.update k b).cached = s.n + s.cached + k ∧
    (s.update k b).total = s.total ∧
    (∀ t, s.total = some t → (s.update k b).n ≤ t) := by
  obtain ⟨n, c, tot⟩ := s
  cases tot with
  | none =>
    cases b <;> simp [BarCounter.update] <;> omega
  | some t =>
    have h1 := hinv t rfl
    have h2 := hle t rfl
    simp only at h1 h2
    cases b <;>
      simp only [BarCounter.update, BarCounter.force_update] <;>
      split_ifs <;> simp_all <;> omega

theorem runUpdates_sum : ∀ (us : List (ℕ × Bool)) (s : BarCounter),
    (∀ t, s.total = some t → s.n ≤ t) →
    (∀ t, s.total = some t → s.n + s.cached + sumUpdates us ≤ t) →
    (runUpdates s us).n + (runUpdates s us).cached = s.n + s.cached + sumUpdates us := by
  intro us
  induction us with
  | nil => intro s _ _; simp [runUpdates, sumUpdates]
  | cons u rest ih =>
    intro s hinv hle
    obtain ⟨k, b⟩ := u
    have hsum : sumUpdates ((k, b) :: rest) = k + sumUpdates rest := by
      simp [sumUpdates]
    obtain ⟨hstep, htot, hinv'⟩ := update_step_sum s k b hinv
      (fun t ht => le_trans (by have := hle t ht; rw [hsum] at this; omega) le_rfl)
    have hle' : ∀ t, (s.update k b).total = some t →
        (s.update k b).n + (s.update k b).cached + sumUpdates rest ≤ t := by
      intro t ht
      rw [htot] at ht
      have := hle t ht
      rw [hsum] at this
      omega
    have := ih (s.update k b) (fun t ht => hinv' t (htot ▸ ht)) hle'
    rw [runUpdates, this, hstep, hsum]
    ring

/-- Counterexample to claim C4 as stated: a bar at `n = 10`,
`elapsed = 1 s` whose last render snapshot was `last_n = 8` one second
earlier (`n ≠ last_n`, so the claim demands the smoothed blend 7.60)
renders the cumulative average 10.00 — `State::fmt` computes
`its = it as f64 / elapsed` and keeps no `last_n` at all. -/
theorem C4_counterexample :
    renderLine ⟨10, none, ⟨1, 1⟩, none, none, none, 80, Style.asRefStr .ASCII⟩ =
      some "10it [00:01, 10.00it/s]" ∧
    fmtFixed 2 (specSmoothedRate ⟨10, 1⟩ ⟨8, 1⟩ ⟨1, 1⟩ ⟨1, 1⟩) = "7.60" ∧
    ¬ Frac.veq ⟨10, 1⟩ ⟨8, 1⟩ ∧
    ("10it [00:01, 10.00it/s]" : String) ≠ "10it [00:01, 7.60it/s]" := by
  decide

/-- Claim C4, amended: the rate the line shows is always the cumulative
average `n / elapsed` (the state keeps no last-render counter snapshot,
so no smoothed blend is ever formed). -/
theorem C4_rate_is_average (s : DState) (h : 0 < s.elapsed.num) :
    rateOf s = FQ.fin ((Frac.ofNat s.n).div s.elapsed) := by
  unfold rateOf fqDiv
  rw [if_neg (by omega)]

/-- Witness for C4: 10 items over 2 seconds. -/
theorem C4_rate_is_average_w :
    0 < (Frac.mk 2 1).num ∧
    rateOf ⟨10, none, ⟨2, 1⟩, none, none, none, 80, Style.asRefStr .ASCII⟩ =
      FQ.fin ((Frac.ofNat 10).div ⟨2, 1⟩) :=
  ⟨by decide, C4_rate_is_average ⟨10, none, ⟨2, 1⟩, none, none, none, 80, Style.asRefStr .ASCII⟩
    (by decide)⟩

/-- Counterexample to claim C5 as stated: an unbounded bar with postfix
`"x"` renders `"30it [00:02, 15.00it/s], x"` — the postfix lands after
the closing bracket, not inside it as the claim's grammar
`... "it/s" ", " postfix "]"` demands. -/
theorem C5_counterexample :
    renderLine ⟨30, none, ⟨2, 1⟩, none, some "x", none, 80, Style.asRefStr .ASCII⟩ =
      some "30it [00:02, 15.00it/s], x" ∧
    ("30it [00:02, 15.00it/s], x" : String) ≠ "30it [00:02, 15.00it/s, x]" := by
  decide

/-- Claim C5, amended: in the unbounded line the postfix is appended
after the closing `"]"`: the line is
`Desc? Count "it [" Time ", " Rate "it/s]"` followed by `", " postfix`. -/
theorem C5_postfix_after_bracket (s : DState) (p : String)
    (h1 : s.total = none) (h2 : s.postfixText = some p) :
    renderLine s = some (unboundedCore s ++ (", " ++ p)) ∧
    ∃ c, unboundedCore s = c ++ "]" := by
  refine ⟨by simp [renderLine, h1, h2, postText], ?_⟩
  refine ⟨descStr s.desc ++ Nat.repr s.n ++ "it [" ++ format_time s.elapsed.castNat ++ ", " ++
    fmtFQ2 (rateOf s) ++ "it/s", ?_⟩
  unfold unboundedCore
  simp only [String.append_assoc]
  rfl

/-- Witness for C5: the concrete unbounded bar of the counterexample. -/
theorem C5_postfix_after_bracket_w :
    ((⟨30, none, ⟨2, 1⟩, none, some "x", none, 80, Style.asRefStr .ASCII⟩ : DState).total = none) ∧
    ((⟨30, none, ⟨2, 1⟩, none, some "x", none, 80, Style.asRefStr .ASCII⟩ : DState).postfixText =
      some "x") ∧
    (renderLine ⟨30, none, ⟨2, 1⟩, none, some "x", none, 80, Style.asRefStr .ASCII⟩ =
      some (unboundedCore ⟨30, none, ⟨2, 1⟩, none, some "x", none, 80, Style.asRefStr .ASCII⟩ ++
        (", " ++ "x")) ∧
    ∃ c, unboundedCore ⟨30, none, ⟨2, 1⟩, none, some "x", none, 80, Style.asRefStr .ASCII⟩ =
      c ++ "]") :=
  ⟨rfl, rfl, C5_postfix_after_bracket _ "x" rfl rfl⟩

theorem runUpdates_total_zero : ∀ (us : List (ℕ × Bool)) (c : ℕ),
    runUpdates ⟨0, c, some 0⟩ us = ⟨0, c + sumUpdates us, some 0⟩ := by
  intro us
  induction us with
  | nil => intro c; simp [runUpdates, sumUpdates]
  | cons u rest ih =>
    intro c
    obtain ⟨k, b⟩ := u
    have hstep : BarCounter.update ⟨0, c, some 0⟩ k b = ⟨0, c + k, some 0⟩ := by
      simp [BarCounter.update]
    rw [runUpdates, hstep, ih (c + k)]
    simp [sumUpdates]
    omega

theorem barGlyphs_cons_isSome (f bg g0 : Char) (gs : List Char) (limit : ℕ) (pct : FQ) :
    (barGlyphs f (g0 :: gs) bg limit pct).isSome = true := by
  simp only [barGlyphs]
  split <;> simp

theorem map_barGlyphs_isSome (g : List Char → String) (f bg g0 : Char) (gs : List Char)
    (limit : ℕ) (pct : FQ) :
    ((barGlyphs f (g0 :: gs) bg limit pct).map g).isSome = true := by
  rcases hbg : barGlyphs f (g0 :: gs) bg limit pct with _ | bar
  · have := barGlyphs_cons_isSome f bg g0 gs limit pct
    rw [hbg] at this
    exact absurd this (by simp)
  · simp

theorem renderLine_isSome_of_style (s : DState) (f bg g0 : Char) (gs : List Char)
    (h : styleParse s.styleStr = some (f, g0 :: gs, bg)) :
    (renderLine s).isSome = true := by
  unfold renderLine
  cases htot : s.total with
  | none => simp
  | some t =>
    rw [h]
    simp only [Option.some_bind]
    exact map_barGlyphs_isSome _ f bg g0 gs _ _

/-- Claim C10: with `total = 0`, every update sequence returns early
(`self.n >= total` holds immediately), so `n` stays 0, and rendering the
line never panics despite `0/0 = NaN`: `(100.0 * NaN) as usize` is 0, so
the percent field shows 0, and `it == 0` makes the ETA render `"?"`. -/
theorem C10_total_zero_render (us : List (ℕ × Bool)) (elapsed : Frac) :
    (runUpdates ⟨0, 0, some 0⟩ us).n = 0 ∧
    percentOfPct (pctOf (runUpdates ⟨0, 0, some 0⟩ us).n 0) = 0 ∧
    etaOf (runUpdates ⟨0, 0, some 0⟩ us).n elapsed (pctOf (runUpdates ⟨0, 0, some 0⟩ us).n 0) =
      "?" ∧
    (renderLine ⟨(runUpdates ⟨0, 0, some 0⟩ us).n, some 0, elapsed, none, none, none, 80,
      Style.asRefStr .ASCII⟩).isSome = true := by
  have hn : (runUpdates ⟨0, 0, some 0⟩ us).n = 0 := by rw [runUpdates_total_zero]
  refine ⟨hn, ?_, ?_, ?_⟩
  · rw [hn]; decide
  · rw [hn]; rfl
  · exact renderLine_isSome_of_style _ ' ' '#' '0'
      ['1', '2', '3', '4', '5', '6', '7', '8', '9'] (by rw [hn]; rfl)

theorem lookup_mapped_filter_ne (id p : ℕ) : ∀ l : Registry,
    lookup id ((l.filter fun e => e.1 ≠ id).map fun e =>
      (e.1, if p < e.2 then e.2 - 1 else e.2)) = none := by
  intro l
  induction l with
  | nil => rfl
  | cons hd tl ih =>
    by_cases hk : hd.1 = id
    · simpa [List.filter_cons, hk] using ih
    · simpa [List.filter_cons, hk, lookup] using ih

theorem lookup_reposition (id : ℕ) (l : Registry) : lookup id (reposition id l) = none := by
  unfold reposition
  cases h : lookup id l with
  | none => exact h
  | some p => exact lookup_mapped_filter_ne id p l

theorem closeOp_of_not_drawable (σ : Sys) (h : σ.drawable = false) : closeOp σ = some σ := by
  unfold closeOp
  rw [if_pos h]

/-- Claim C8: `close` is idempotent.  A successful close removes the
bar's id from the registry, so `drawable` is false afterwards and any
later close returns immediately: same registry, no reposition, nothing
queued to the terminal (`bind` absorbs the panic case). -/
theorem C8_close_idempotent (σ : Sys) : (closeOp σ).bind closeOp = closeOp σ := by
  by_cases hd : σ.drawable = false
  · rw [closeOp_of_not_drawable σ hd, Option.some_bind, closeOp_of_not_drawable σ hd]
  · unfold closeOp
    rw [if_neg hd]
    simp only [Option.some_bind]
    split
    · simp
    · rw [Option.some_bind]
      exact closeOp_of_not_drawable _ (by simp [Sys.drawable, lookup_reposition])

theorem rheID_le2 (n : ℤ) (d : ℕ) (hd : 0 < d) :
    2 * (d : ℤ) * rheID n d ≤ 2 * n + d := by
  have hd' : (0 : ℤ) < d := by exact_mod_cast hd
  have hmod := Int.fdiv_add_fmod n d
  have h0 : 0 ≤ n.fmod d := Int.fmod_nonneg' n hd'
  have h1 : n.fmod d < d := Int.fmod_lt_of_pos n hd'
  simp only [rheID]
  split_ifs <;> nlinarith [hmod, h0, h1]

theorem rheID_nonneg (n : ℤ) (d : ℕ) (hn : 0 ≤ n) (hd : 0 < d) : 0 ≤ rheID n d := by
  have hd' : (0 : ℤ) ≤ d := by exact_mod_cast hd.le
  have := Int.fdiv_nonneg hn hd'
  simp only [rheID]
  split_ifs <;> linarith

theorem lg2F_spec : ∀ (fuel n : ℕ), 1 ≤ n → n ≤ fuel →
    2 ^ lg2F fuel n ≤ n ∧ n < 2 ^ (lg2F fuel n + 1) := by
  intro fuel
  induction fuel with
  | zero => intro n h1 h2; omega
  | succ f ih =>
    intro n h1 h2
    by_cases h : n < 2
    · simp only [lg2F, if_pos h]
      omega
    · have hn2 : 1 ≤ n / 2 := by omega
      have hf : n / 2 ≤ f := by omega
      obtain ⟨ha, hb⟩ := ih (n / 2) hn2 hf
      simp only [lg2F, if_neg h]
      have e1 : 2 ^ (lg2F f (n / 2) + 1) = 2 * 2 ^ lg2F f (n / 2) := by ring
      have e2 : 2 ^ (lg2F f (n / 2) + 1 + 1) = 2 * 2 ^ (lg2F f (n / 2) + 1) := by ring
      omega

theorem lg2_le {n : ℕ} (h : 1 ≤ n) : 2 ^ lg2 n ≤ n := (lg2F_spec n n h le_rfl).1

theorem lg2_lt (n : ℕ) : n < 2 ^ (lg2 n + 1) := by
  rcases Nat.eq_zero_or_pos n with h | h
  · subst h
    decide
  · exact (lg2F_spec n n h le_rfl).2

theorem normP_ge (a b : ℕ) (ha : 1 ≤ a) (hb : 1 ≤ b) :
    b * 2 ^ 52 ≤ a * 2 ^ normP a b := by
  simp only [normP]
  split
  · assumption
  · have h1 : b < 2 ^ (lg2 b + 1) := lg2_lt b
    have h2 : 2 ^ lg2 a ≤ a := lg2_le ha
    have key : b * 2 ^ 52 < 2 ^ (lg2 b + 53) := by
      calc b * 2 ^ 52 < 2 ^ (lg2 b + 1) * 2 ^ 52 :=
            mul_lt_mul_of_pos_right h1 (by positivity)
        _ = 2 ^ (lg2 b + 53) := by rw [← pow_add]
    have key2 : (2 : ℕ) ^ (lg2 b + 53) ≤ 2 ^ (lg2 a + ((52 + lg2 b - lg2 a) + 1)) :=
      Nat.pow_le_pow_right (by norm_num) (by omega)
    have key3 : (2 : ℕ) ^ (lg2 a + ((52 + lg2 b - lg2 a) + 1)) =
        2 ^ lg2 a * 2 ^ ((52 + lg2 b - lg2 a) + 1) := pow_add 2 _ _
    have key4 : 2 ^ lg2 a * 2 ^ ((52 + lg2 b - lg2 a) + 1) ≤
        a * 2 ^ ((52 + lg2 b - lg2 a) + 1) :=
      Nat.mul_le_mul_right _ h2
    omega

theorem normQ_ge (a b : ℕ) (hb : 1 ≤ b) (hab : b * 2 ^ 53 ≤ a) :
    b * 2 ^ (normQ a b + 52) ≤ a := by
  have ha : 1 ≤ a := by
    have : (1 : ℕ) * 1 ≤ b * 2 ^ 53 := Nat.mul_le_mul hb (by norm_num)
    omega
  have hla : lg2 b + 53 ≤ lg2 a := by
    have h1 : 2 ^ (lg2 b + 53) ≤ a := by
      calc (2 : ℕ) ^ (lg2 b + 53) = 2 ^ lg2 b * 2 ^ 53 := pow_add 2 _ _
        _ ≤ b * 2 ^ 53 := Nat.mul_le_mul_right _ (lg2_le hb)
        _ ≤ a := hab
    have h2 : a < 2 ^ (lg2 a + 1) := lg2_lt a
    have h3 := (Nat.pow_lt_pow_iff_right (by norm_num : 1 < 2)).mp (lt_of_le_of_lt h1 h2)
    omega
  simp only [normQ]
  split
  · assumption
  · have h1 : b * 2 ^ ((lg2 a - lg2 b - 52 - 1) + 52) <
        2 ^ (lg2 b + 1) * 2 ^ ((lg2 a - lg2 b - 52 - 1) + 52) :=
      mul_lt_mul_of_pos_right (lg2_lt b) (by positivity)
    have h2 : (2 : ℕ) ^ (lg2 b + 1) * 2 ^ ((lg2 a - lg2 b - 52 - 1) + 52) =
        2 ^ ((lg2 b + 1) + ((lg2 a - lg2 b - 52 - 1) + 52)) := (pow_add 2 _ _).symm
    have h3 : (2 : ℕ) ^ ((lg2 b + 1) + ((lg2 a - lg2 b - 52 - 1) + 52)) ≤ 2 ^ lg2 a :=
      Nat.pow_le_pow_right (by norm_num) (by omega)
    have h4 : (2 : ℕ) ^ lg2 a ≤ a := lg2_le ha
    omega

theorem frac_val_le_of_int (s : ℤ) (d a b : ℕ) (hd : 0 < d) (hb : 0 < b)
    (h : s * b * 2 ^ 53 ≤ (a : ℤ) * d * (2 ^ 53 + 1)) :
    Frac.val ⟨s, d⟩ ≤ ((a : ℚ) / b) * (1 + 1 / 2 ^ 53) := by
  have hd' : (0 : ℚ) < d := by exact_mod_cast hd
  have hb' : (0 : ℚ) < b := by exact_mod_cast hb
  have hQ : (s : ℚ) * b * 2 ^ 53 ≤ (a : ℚ) * d * (2 ^ 53 + 1) := by exact_mod_cast h
  have hrhs : ((a : ℚ) / b) * (1 + 1 / 2 ^ 53) = ((a : ℚ) * (2 ^ 53 + 1)) / (b * 2 ^ 53) := by
    field_simp
  rw [hrhs]
  show (s : ℚ) / (d : ℚ) ≤ _
  rw [div_le_div_iff hd' (by positivity)]
  nlinarith [hQ]

theorem roundPosF64_le_val (a b : ℕ) (ha : 1 ≤ a) (hb : 1 ≤ b) :
    (roundPosF64 a b).val ≤ ((a : ℚ) / b) * (1 + 1 / 2 ^ 53) := by
  unfold roundPosF64
  split
  · refine frac_val_le_of_int _ _ a b (by positivity) hb ?_
    have hbin : (b : ℤ) * 2 ^ 52 ≤ (a : ℤ) * 2 ^ normP a b := by
      exact_mod_cast normP_ge a b ha hb
    have hs := rheID_le2 ((a * 2 ^ normP a b : ℕ) : ℤ) b hb
    push_cast at hs ⊢
    have hs52 := mul_le_mul_of_nonneg_right hs (show (0 : ℤ) ≤ 2 ^ 52 by norm_num)
    nlinarith [hs52, hbin]
  · rename_i hge
    have hab : b * 2 ^ 53 ≤ a := by omega
    have hbq : 0 < b * 2 ^ normQ a b := by positivity
    refine frac_val_le_of_int _ _ a b Nat.one_pos hb ?_
    have hbin : (b : ℤ) * 2 ^ normQ a b * 2 ^ 52 ≤ (a : ℤ) := by
      have h1 : ((b * 2 ^ (normQ a b + 52) : ℕ) : ℤ) ≤ ((a : ℕ) : ℤ) := by
        exact_mod_cast normQ_ge a b hb hab
      push_cast at h1
      rw [pow_add] at h1
      linarith
    have hs := rheID_le2 ((a : ℕ) : ℤ) (b * 2 ^ normQ a b) hbq
    push_cast at hs ⊢
    have hs52 := mul_le_mul_of_nonneg_right hs (show (0 : ℤ) ≤ 2 ^ 52 by norm_num)
    nlinarith [hs52, hbin]

theorem roundPosF64_num_nonneg (a b : ℕ) (hb : 0 < b) : 0 ≤ (roundPosF64 a b).num := by
  unfold roundPosF64
  split
  · exact rheID_nonneg _ _ (Int.natCast_nonneg _) hb
  · exact mul_nonneg (rheID_nonneg _ _ (Int.natCast_nonneg _) (by positivity)) (by positivity)

theorem roundPosF64_den_pos (a b : ℕ) : 0 < (roundPosF64 a b).den := by
  unfold roundPosF64
  split
  · show 0 < 2 ^ normP a b
    positivity
  · exact Nat.one_pos

theorem roundF64_num_nonneg (f : Frac) (h0 : 0 ≤ f.num) (hd : 0 < f.den) :
    0 ≤ (roundF64 f).num := by
  unfold roundF64
  split
  · exact le_refl 0
  · split
    · exact roundPosF64_num_nonneg _ _ hd
    · rename_i hne hnlt
      exact absurd h0 (by omega)

theorem roundF64_den_pos (f : Frac) : 0 < (roundF64 f).den := by
  unfold roundF64
  split
  · exact Nat.one_pos
  · split
    · exact roundPosF64_den_pos _ _
    · exact roundPosF64_den_pos _ _

theorem roundF64_le_val (f : Frac) (h0 : 0 ≤ f.num) (hd : 0 < f.den) :
    (roundF64 f).val ≤ f.val * (1 + 1 / 2 ^ 53) := by
  unfold roundF64
  split
  · rename_i hz
    simp [Frac.val, hz]
  · split
    · rename_i hz hpos
      have ha : 1 ≤ f.num.toNat := by omega
      have hnum : ((f.num.toNat : ℕ) : ℚ) = (f.num : ℚ) := by
        exact_mod_cast congrArg (fun z : ℤ => (z : ℚ)) (Int.toNat_of_nonneg h0)
      have hval : ((f.num.toNat : ℕ) : ℚ) / (f.den : ℚ) = f.val := by
        rw [Frac.val, hnum]
      calc (roundPosF64 f.num.toNat f.den).val
          ≤ ((f.num.toNat : ℕ) : ℚ) / (f.den : ℚ) * (1 + 1 / 2 ^ 53) :=
            roundPosF64_le_val _ _ ha (by omega)
        _ = f.val * (1 + 1 / 2 ^ 53) := by rw [hval]
    · rename_i hz hnlt
      exact absurd h0 (by omega)

theorem val_mul (f g : Frac) : (f.mul g).val = f.val * g.val := by
  simp only [Frac.mul, Frac.val]
  push_cast
  rw [div_mul_div_comm]

theorem val_nonneg (f : Frac) (h : 0 ≤ f.num) : 0 ≤ f.val :=
  div_nonneg (by exact_mod_cast h) (Nat.cast_nonneg _)

theorem castNat_le_of_val_lt (f : Frac) (L : ℕ) (h0 : 0 ≤ f.num) (hd : 0 < f.den)
    (h : f.val < (L : ℚ) + 1) : f.castNat ≤ L := by
  rw [Frac.castNat]
  split
  · exact Nat.zero_le L
  · refine le_trans (min_le_left _ _) ?_
    have hdQ : (0 : ℚ) < f.den := by exact_mod_cast hd
    rw [Frac.val, div_lt_iff hdQ] at h
    have hnumQ : ((f.num.toNat : ℕ) : ℚ) = (f.num : ℚ) := by
      exact_mod_cast congrArg (fun z : ℤ => (z : ℚ)) (Int.toNat_of_nonneg h0)
    have hn : f.num.toNat < (L + 1) * f.den := by
      have hq : ((f.num.toNat : ℕ) : ℚ) < (((L + 1) * f.den : ℕ) : ℚ) := by
        rw [hnumQ]
        push_cast
        linarith [h]
      exact_mod_cast hq
    exact Nat.lt_succ_iff.mp ((Nat.div_lt_iff_lt_mul hd).mpr hn)

theorem fqChain_le (limit m : ℕ) (pct : Frac) (hden : 0 < pct.den) (h0 : 0 ≤ pct.num)
    (h1 : pct.num ≤ (pct.den : ℤ)) (hfit : limit * m ≤ 2 ^ 51) :
    fqCastNat (fqMulFF (fqMulFF (FQ.fin (Frac.ofNat limit)) (FQ.fin pct))
      (FQ.fin (Frac.ofNat m))) ≤ limit * m := by
  simp only [fqMulFF, fqCastNat]
  have hf1num : 0 ≤ ((Frac.ofNat limit).mul pct).num := by
    simp only [Frac.mul, Frac.ofNat]
    exact mul_nonneg (Int.natCast_nonneg _) h0
  have hf1den : 0 < ((Frac.ofNat limit).mul pct).den := by
    simp only [Frac.mul, Frac.ofNat]
    omega
  have hf1val : ((Frac.ofNat limit).mul pct).val ≤ (limit : ℚ) := by
    rw [val_mul]
    have hpv : pct.val ≤ 1 := by
      rw [Frac.val, div_le_one (by exact_mod_cast hden)]
      exact_mod_cast h1
    have hov : Frac.val (Frac.ofNat limit) = (limit : ℚ) := by
      simp [Frac.val, Frac.ofNat]
    rw [hov]
    calc (limit : ℚ) * pct.val ≤ (limit : ℚ) * 1 :=
          mul_le_mul_of_nonneg_left hpv (Nat.cast_nonneg _)
      _ = (limit : ℚ) := mul_one _
  have hr1num : 0 ≤ (roundF64 ((Frac.ofNat limit).mul pct)).num :=
    roundF64_num_nonneg _ hf1num hf1den
  have hr1den : 0 < (roundF64 ((Frac.ofNat limit).mul pct)).den := roundF64_den_pos _
  have hr1val := roundF64_le_val _ hf1num hf1den
  have hf2num : 0 ≤ ((roundF64 ((Frac.ofNat limit).mul pct)).mul (Frac.ofNat m)).num :=
    mul_nonneg hr1num (Int.natCast_nonneg _)
  have hf2den : 0 < ((roundF64 ((Frac.ofNat limit).mul pct)).mul (Frac.ofNat m)).den :=
    mul_pos hr1den Nat.one_pos
  have hf2val : ((roundF64 ((Frac.ofNat limit).mul pct)).mul (Frac.ofNat m)).val =
      (roundF64 ((Frac.ofNat limit).mul pct)).val * (m : ℚ) := by
    rw [val_mul]
    have hov : Frac.val (Frac.ofNat m) = (m : ℚ) := by
      simp [Frac.val, Frac.ofNat]
    rw [hov]
  have hr2num : 0 ≤
      (roundF64 ((roundF64 ((Frac.ofNat limit).mul pct)).mul (Frac.ofNat m))).num :=
    roundF64_num_nonneg _ hf2num hf2den
  have hr2den : 0 <
      (roundF64 ((roundF64 ((Frac.ofNat limit).mul pct)).mul (Frac.ofNat m))).den :=
    roundF64_den_pos _
  have hr2val := roundF64_le_val _ hf2num hf2den
  have s1 : (roundF64 ((Frac.ofNat limit).mul pct)).val ≤ (limit : ℚ) * (1 + 1 / 2 ^ 53) :=
    le_trans hr1val (mul_le_mul_of_nonneg_right hf1val (by norm_num))
  have s2 : ((roundF64 ((Frac.ofNat limit).mul pct)).mul (Frac.ofNat m)).val ≤
      (limit : ℚ) * (1 + 1 / 2 ^ 53) * (m : ℚ) := by
    rw [hf2val]
    exact mul_le_mul_of_nonneg_right s1 (Nat.cast_nonneg _)
  have s3 : (roundF64 ((roundF64 ((Frac.ofNat limit).mul pct)).mul (Frac.ofNat m))).val ≤
      (limit : ℚ) * (1 + 1 / 2 ^ 53) * (m : ℚ) * (1 + 1 / 2 ^ 53) :=
    le_trans hr2val (mul_le_mul_of_nonneg_right s2 (by norm_num))
  have s4 : (roundF64 ((roundF64 ((Frac.ofNat limit).mul pct)).mul (Frac.ofNat m))).val <
      ((limit * m : ℕ) : ℚ) + 1 := by
    have hfitQ : ((limit * m : ℕ) : ℚ) ≤ 2 ^ 51 := by
      exact_mod_cast (show (limit * m : ℕ) ≤ 2 ^ 51 from hfit)
    push_cast at s3 hfitQ ⊢
    nlinarith [s3, hfitQ]
  exact castNat_le_of_val_lt _ _ hr2num hr2den s4

/-- Counterexample to claim C6 as stated: at the program's own percentage
for `n = 2, total = 3` (the `f64` nearest `2/3`, which is
`6004799503160661 / 2^53`, just below `2/3`), a 3-column bar with the
custom style `"=>-"` renders `"==>"`, while `⌊limit · pct · m⌋ = 1` would
give `"=>-"`: the `f64` product `3.0 * pct` is `2 − 2⁻⁵³`, which
round-to-nearest-even pushes up to `2.0` before the truncating cast. -/
theorem C6_counterexample :
    0 < (Frac.mk 6004799503160661 (2 ^ 53)).den ∧
    0 ≤ (Frac.mk 6004799503160661 (2 ^ 53)).num ∧
    (Frac.mk 6004799503160661 (2 ^ 53)).num ≤ ((Frac.mk 6004799503160661 (2 ^ 53)).den : ℤ) ∧
    barGlyphs '=' ['>'] '-' 3 (FQ.fin ⟨6004799503160661, 2 ^ 53⟩) =
      some ['=', '=', '>'] ∧
    ⌊(3 : ℚ) * (Frac.mk 6004799503160661 (2 ^ 53)).val * ((0 + 1 : ℕ) : ℚ)⌋₊ = 1 ∧
    (['=', '=', '>'] : List Char) ≠
      List.replicate (1 / 1) '=' ++ [(['>'] : List Char).getD (1 % 1) '='] ++
        List.replicate (3 - 1 / 1 - 1) '-' := by
  refine ⟨by decide, by decide, by decide, by decide, ?_, by decide⟩
  have hv : (3 : ℚ) * (Frac.mk 6004799503160661 (2 ^ 53)).val * ((0 + 1 : ℕ) : ℚ) =
      18014398509481983 / 9007199254740992 := by
    rw [Frac.val]
    norm_num
  rw [hv, Nat.floor_eq_iff (by norm_num)]
  constructor <;> norm_num

/-- Claim C6 (amended): with `m ≥ 1` in-progress glyphs and
`pct ∈ [0, 1]`, the glyph region is built from the count
`k = ((limit as f64 * pct) * m as f64) as usize` — the doubly rounded
`f64` product chain, which can differ by one from `⌊limit·pct·m⌋` when a
rounding crosses an integer (`C6_counterexample`) — with
`n_full = k / m`, `partial_index = k % m`, the claimed
Filled*/Partial?/Background* shape, and length exactly `limit`.
(`limit · m ≤ 2^51` records that both counts are small machine integers,
so `k ≤ limit · m`: the relative error of the two roundings stays below
`1 / (limit · m)` and the saturating cast never fires.) -/
theorem C6_bar_region (F bg g0 : Char) (gs : List Char) (limit : ℕ) (pct : Frac)
    (hden : 0 < pct.den) (h0 : 0 ≤ pct.num) (h1 : pct.num ≤ (pct.den : ℤ))
    (hfit : limit * (gs.length + 1) ≤ 2 ^ 51) :
    ∃ k nFull bar,
      k = fqCastNat (fqMulFF (fqMulFF (FQ.fin (Frac.ofNat limit)) (FQ.fin pct))
            (FQ.fin (Frac.ofNat (gs.length + 1)))) ∧
      k ≤ limit * (gs.length + 1) ∧
      nFull = k / (gs.length + 1) ∧
      barGlyphs F (g0 :: gs) bg limit (FQ.fin pct) = some bar ∧
      bar = List.replicate nFull F ++
        (if nFull < limit then [(g0 :: gs).getD (k % (gs.length + 1)) F] else []) ++
        (if nFull + 1 < limit then List.replicate (limit - nFull - 1) bg else []) ∧
      bar.length = limit := by
  have hK : fqCastNat (fqMulFF (fqMulFF (FQ.fin (Frac.ofNat limit)) (FQ.fin pct))
      (FQ.fin (Frac.ofNat (gs.length + 1)))) ≤ limit * (gs.length + 1) :=
    fqChain_le limit (gs.length + 1) pct hden h0 h1 hfit
  have hNFle : fqCastNat (fqMulFF (fqMulFF (FQ.fin (Frac.ofNat limit)) (FQ.fin pct))
      (FQ.fin (Frac.ofNat (gs.length + 1)))) / (gs.length + 1) ≤ limit := by
    refine Nat.div_le_of_le_mul ?_
    calc fqCastNat (fqMulFF (fqMulFF (FQ.fin (Frac.ofNat limit)) (FQ.fin pct))
          (FQ.fin (Frac.ofNat (gs.length + 1)))) ≤ limit * (gs.length + 1) := hK
      _ = (gs.length + 1) * limit := Nat.mul_comm _ _
  have hmod : fqCastNat (fqMulFF (fqMulFF (FQ.fin (Frac.ofNat limit)) (FQ.fin pct))
      (FQ.fin (Frac.ofNat (gs.length + 1)))) % (gs.length + 1) < (g0 :: gs).length :=
    Nat.mod_lt _ (Nat.succ_pos gs.length)
  refine ⟨fqCastNat (fqMulFF (fqMulFF (FQ.fin (Frac.ofNat limit)) (FQ.fin pct))
      (FQ.fin (Frac.ofNat (gs.length + 1)))),
    fqCastNat (fqMulFF (fqMulFF (FQ.fin (Frac.ofNat limit)) (FQ.fin pct))
      (FQ.fin (Frac.ofNat (gs.length + 1)))) / (gs.length + 1),
    List.replicate (fqCastNat (fqMulFF (fqMulFF (FQ.fin (Frac.ofNat limit)) (FQ.fin pct))
        (FQ.fin (Frac.ofNat (gs.length + 1)))) / (gs.length + 1)) F ++
      (if fqCastNat (fqMulFF (fqMulFF (FQ.fin (Frac.ofNat limit)) (FQ.fin pct))
          (FQ.fin (Frac.ofNat (gs.length + 1)))) / (gs.length + 1) < limit then
        [(g0 :: gs).getD (fqCastNat (fqMulFF (fqMulFF (FQ.fin (Frac.ofNat limit)) (FQ.fin pct))
          (FQ.fin (Frac.ofNat (gs.length + 1)))) % (gs.length + 1)) F] else []) ++
      (if fqCastNat (fqMulFF (fqMulFF (FQ.fin (Frac.ofNat limit)) (FQ.fin pct))
          (FQ.fin (Frac.ofNat (gs.length + 1)))) / (gs.length + 1) + 1 < limit then
        List.replicate (limit - fqCastNat (fqMulFF (fqMulFF (FQ.fin (Frac.ofNat limit))
          (FQ.fin pct)) (FQ.fin (Frac.ofNat (gs.length + 1)))) / (gs.length + 1) - 1) bg
      else []),
    rfl, hK, rfl, ?_, rfl, ?_⟩
  · simp only [barGlyphs]
    by_cases hlt : fqCastNat (fqMulFF (fqMulFF (FQ.fin (Frac.ofNat limit)) (FQ.fin pct))
        (FQ.fin (Frac.ofNat (gs.length + 1)))) / (gs.length + 1) < limit
    · by_cases hlt1 : fqCastNat (fqMulFF (fqMulFF (FQ.fin (Frac.ofNat limit)) (FQ.fin pct))
          (FQ.fin (Frac.ofNat (gs.length + 1)))) / (gs.length + 1) + 1 < limit <;>
        simp [hlt, hlt1, List.getD_eq_getElem (g0 :: gs) F hmod, List.get_eq_getElem,
          List.append_assoc, List.getElem?_eq_getElem hmod]
    · have hlt1 : ¬ fqCastNat (fqMulFF (fqMulFF (FQ.fin (Frac.ofNat limit)) (FQ.fin pct))
          (FQ.fin (Frac.ofNat (gs.length + 1)))) / (gs.length + 1) + 1 < limit := by
        omega
      simp [hlt, hlt1]
  · by_cases hlt : fqCastNat (fqMulFF (fqMulFF (FQ.fin (Frac.ofNat limit)) (FQ.fin pct))
        (FQ.fin (Frac.ofNat (gs.length + 1)))) / (gs.length + 1) < limit
    · by_cases hlt1 : fqCastNat (fqMulFF (fqMulFF (FQ.fin (Frac.ofNat limit)) (FQ.fin pct))
          (FQ.fin (Frac.ofNat (gs.length + 1)))) / (gs.length + 1) + 1 < limit <;>
        simp [hlt, hlt1] <;> omega
    · have hlt1 : ¬ fqCastNat (fqMulFF (fqMulFF (FQ.fin (Frac.ofNat limit)) (FQ.fin pct))
          (FQ.fin (Frac.ofNat (gs.length + 1)))) / (gs.length + 1) + 1 < limit := by
        omega
      simp [hlt, hlt1]
      omega

/-- Witness for C6: the spec's own scenario — custom style `"=>-"`, 50%,
`limit = 20`. -/
theorem C6_bar_region_w :
    0 < (Frac.mk 1 2).den ∧ 0 ≤ (Frac.mk 1 2).num ∧
    (Frac.mk 1 2).num ≤ ((Frac.mk 1 2).den : ℤ) ∧
    20 * (([] : List Char).length + 1) ≤ 2 ^ 51 ∧
    (∃ k nFull bar,
      k = fqCastNat (fqMulFF (fqMulFF (FQ.fin (Frac.ofNat 20)) (FQ.fin ⟨1, 2⟩))
            (FQ.fin (Frac.ofNat (([] : List Char).length + 1)))) ∧
      k ≤ 20 * (([] : List Char).length + 1) ∧
      nFull = k / (([] : List Char).length + 1) ∧
      barGlyphs '=' ('>' :: []) '-' 20 (FQ.fin ⟨1, 2⟩) = some bar ∧
      bar = List.replicate nFull '=' ++
        (if nFull < 20 then [('>' :: []).getD (k % (([] : List Char).length + 1)) '='] else []) ++
        (if nFull + 1 < 20 then List.replicate (20 - nFull - 1) '-' else []) ∧
      bar.length = 20) :=
  ⟨by decide, by decide, by decide, by decide,
    C6_bar_region '=' '-' '>' [] 20 ⟨1, 2⟩ (by decide) (by decide) (by decide) (by decide)⟩

theorem maxVal_none_iff {l : List ℕ} (h : maxVal l = none) : l = [] := by
  cases l with
  | nil => rfl
  | cons x xs => cases hx : maxVal xs <;> simp [maxVal, hx] at h

theorem maxVal_spec : ∀ {l : List ℕ} {m : ℕ}, maxVal l = some m →
    m ∈ l ∧ ∀ x ∈ l, x ≤ m := by
  intro l
  induction l with
  | nil => intro m h; cases h
  | cons x xs ih =>
    intro m h
    cases hx : maxVal xs with
    | none =>
      have hxs : xs = [] := maxVal_none_iff hx
      subst hxs
      simp only [maxVal] at h
      cases h
      simp
    | some m' =>
      simp only [maxVal, hx] at h
      obtain ⟨hm', hbd⟩ := ih hx
      cases h
      refine ⟨?_, ?_⟩
      · rcases Nat.le_total x m' with hxy | hxy
        · rw [Nat.max_eq_right hxy]
          exact List.mem_cons_of_mem _ hm'
        · rw [Nat.max_eq_left hxy]
          exact List.mem_cons_self _ _
      · intro y hy
        rcases List.mem_cons.mp hy with h' | h'
        · subst h'
          exact Nat.le_max_left _ _
        · exact le_trans (hbd _ h') (Nat.le_max_right _ _)

/-- Converse direction of `maxVal_spec`: a member that bounds the list
is the maximum. -/
theorem maxVal_eq_of : ∀ {l : List ℕ} {m : ℕ}, m ∈ l → (∀ x ∈ l, x ≤ m) →
    maxVal l = some m := by
  intro l
  induction l with
  | nil => intro m hm _; simp at hm
  | cons x xs ih =>
    intro m hm hbd
    cases hx : maxVal xs with
    | none =>
      have hxs : xs = [] := maxVal_none_iff hx
      subst hxs
      have hx' : m = x := by simpa using hm
      subst hx'
      simp [maxVal]
    | some m' =>
      obtain ⟨hmem', hbd'⟩ := maxVal_spec hx
      simp only [maxVal, hx]
      have hxm : x ≤ m := hbd x (List.mem_cons_self x xs)
      have hm'm : m' ≤ m := hbd m' (List.mem_cons_of_mem _ hmem')
      rcases List.mem_cons.mp hm with h' | h'
      · subst h'
        congr 1
        omega
      · have hmm' : m ≤ m' := hbd' m h'
        congr 1
        omega

/-- On a registry whose rows are a permutation of `{0..len−1}` with
`len < 2^16`, the wrapped `u16` increment in `nextPosOf` is exact. -/
theorem nextPosOf_perm {l : Registry} (h : (l.map Prod.snd).Perm (List.range l.length))
    (hlen : l.length < 2 ^ 16) : nextPosOf l = l.length := by
  unfold nextPosOf
  cases hm : maxVal (l.map Prod.snd) with
  | none =>
    have h0 : l = [] := by
      have := maxVal_none_iff hm
      cases l with
      | nil => rfl
      | cons a t => simp at this
    simp [h0]
  | some m =>
    obtain ⟨hmem, hbd⟩ := maxVal_spec hm
    have hlen0 : 0 < l.length := by
      cases l with
      | nil => simp at hmem
      | cons a t => simp
    have h1 : m < l.length := List.mem_range.mp (h.mem_iff.mp hmem)
    have h2 : l.length - 1 ∈ l.map Prod.snd :=
      h.mem_iff.mpr (List.mem_range.mpr (by omega))
    have h3 := hbd _ h2
    show (m + 1) % 2 ^ 16 = l.length
    have hm1 : m + 1 = l.length := by omega
    rw [hm1, Nat.mod_eq_of_lt hlen]

theorem perm_cons_range {v : List ℕ} {k : ℕ} (h : v.Perm (List.range k)) :
    (k :: v).Perm (List.range (k + 1)) := by
  rw [List.range_succ]
  exact (h.cons k).trans (List.perm_append_singleton k (List.range k)).symm

theorem dec_perm_range {v : List ℕ} {p k : ℕ} (h : (p :: v).Perm (List.range (k + 1))) :
    (v.map fun x => if p < x then x - 1 else x).Perm (List.range k) := by
  have hnd : (p :: v).Nodup := h.symm.nodup (List.nodup_range (k + 1))
  obtain ⟨hpv, hvnd⟩ := List.nodup_cons.mp hnd
  have hmem : ∀ x, x ∈ p :: v ↔ x < k + 1 := fun x => h.mem_iff.trans List.mem_range
  have hinj : ∀ x ∈ v, ∀ y ∈ v,
      (if p < x then x - 1 else x) = (if p < y then y - 1 else y) → x = y := by
    intro x hx y hy hxy
    have hxp : x ≠ p := fun h' => hpv (h' ▸ hx)
    have hyp : y ≠ p := fun h' => hpv (h' ▸ hy)
    split_ifs at hxy <;> omega
  have hnd2 := hvnd.map_on hinj
  have hmem2 : ∀ z, z ∈ v.map (fun x => if p < x then x - 1 else x) ↔ z < k := by
    intro z
    constructor
    · intro hz
      obtain ⟨x, hx, rfl⟩ := List.mem_map.mp hz
      have hx1 : x < k + 1 := (hmem x).mp (List.mem_cons_of_mem _ hx)
      have hxp : x ≠ p := fun h' => hpv (h' ▸ hx)
      have hp1 : p ≤ k := by
        have := (hmem p).mp (List.mem_cons_self p v)
        omega
      split_ifs <;> omega
    · intro hz
      by_cases hzp : z < p
      · refine List.mem_map.mpr ⟨z, ?_, by rw [if_neg (by omega)]⟩
        have hzin : z ∈ p :: v := (hmem z).mpr (by omega)
        rcases List.mem_cons.mp hzin with h' | h'
        · omega
        · exact h'
      · refine List.mem_map.mpr ⟨z + 1, ?_, by rw [if_pos (by omega)]; omega⟩
        have hzin : z + 1 ∈ p :: v := (hmem (z + 1)).mpr (by omega)
        rcases List.mem_cons.mp hzin with h' | h'
        · omega
        · exact h'
  exact (List.perm_ext_iff_of_nodup hnd2 (List.nodup_range k)).mpr
    fun a => (hmem2 a).trans List.mem_range.symm

theorem filter_ne_of_not_mem_keys {id : ℕ} {l : Registry}
    (h : id ∉ l.map Prod.fst) : (l.filter fun e => e.1 ≠ id) = l := by
  refine List.filter_eq_self.mpr ?_
  intro a ha
  have : a.1 ≠ id := by
    intro h'
    exact h (h' ▸ List.mem_map_of_mem Prod.fst ha)
  simpa using this

theorem vals_perm_of_lookup {id p : ℕ} : ∀ {l : Registry}, (l.map Prod.fst).Nodup →
    lookup id l = some p →
    (p :: (l.filter fun e => e.1 ≠ id).map Prod.snd).Perm (l.map Prod.snd) := by
  intro l
  induction l with
  | nil => intro _ h; cases h
  | cons hd tl ih =>
    obtain ⟨i, q⟩ := hd
    intro hnd hl
    rw [List.map_cons] at hnd
    obtain ⟨hnin, hndtl⟩ := List.nodup_cons.mp hnd
    by_cases hk : i = id
    · subst hk
      have hp : q = p := by simpa [lookup] using hl
      have hfil : (tl.filter fun e => e.1 ≠ i) = tl := filter_ne_of_not_mem_keys hnin
      subst hp
      simp only [List.filter_cons, List.map_cons]
      rw [if_neg (by simp), hfil]
    · have hl' : lookup id tl = some p := by simpa [lookup, hk] using hl
      have hperm := ih hndtl hl'
      simp only [List.filter_cons, List.map_cons]
      rw [if_pos (by simpa using hk)]
      simp only [List.map_cons]
      exact (List.Perm.swap q p _).trans (hperm.cons q)

/-- Invariant along capped interleavings: ids below the allocator, keys
unique, rows a permutation of `{0..k−1}`. -/
theorem reach_inv : ∀ {σ : RegSt}, ReachCap σ →
    (∀ i ∈ σ.positions.map Prod.fst, i < σ.nextId) ∧
    (σ.positions.map Prod.fst).Nodup ∧
    (σ.positions.map Prod.snd).Perm (List.range σ.positions.length) := by
  intro σ h
  induction h with
  | init => exact ⟨by simp, by simp, by simp⟩
  | @create σ' h hcap ih =>
    obtain ⟨hbd, hnd, hperm⟩ := ih
    refine ⟨?_, ?_, ?_⟩
    · intro i hi
      simp only [next_free_pos, List.map_cons, List.mem_cons] at hi ⊢
      rcases hi with h' | h'
      · omega
      · exact lt_trans (hbd _ h') (by omega)
    · simp only [next_free_pos, List.map_cons]
      exact List.nodup_cons.mpr ⟨fun hmem => absurd (hbd _ hmem) (by omega), hnd⟩
    · simp only [next_free_pos, List.map_cons, List.length_cons]
      rw [nextPosOf_perm hperm hcap]
      exact perm_cons_range hperm
  | @close σ' id h hsome ih =>
    obtain ⟨hbd, hnd, hperm⟩ := ih
    obtain ⟨p, hp⟩ := Option.isSome_iff_exists.mp hsome
    have hrepos : reposition id σ'.positions =
        (σ'.positions.filter fun e => e.1 ≠ id).map fun e =>
          (e.1, if p < e.2 then e.2 - 1 else e.2) := by
      rw [reposition, hp]
    have hkeys : (((σ'.positions.filter fun e => e.1 ≠ id).map fun e =>
        (e.1, if p < e.2 then e.2 - 1 else e.2)).map Prod.fst) =
        (σ'.positions.filter fun e => e.1 ≠ id).map Prod.fst := by
      rw [List.map_map]
      rfl
    have hvals : (((σ'.positions.filter fun e => e.1 ≠ id).map fun e =>
        (e.1, if p < e.2 then e.2 - 1 else e.2)).map Prod.snd) =
        ((σ'.positions.filter fun e => e.1 ≠ id).map Prod.snd).map
          fun x => if p < x then x - 1 else x := by
      rw [List.map_map, List.map_map]
      rfl
    have hsub : ((σ'.positions.filter fun e => e.1 ≠ id).map Prod.fst).Sublist
        (σ'.positions.map Prod.fst) :=
      (List.filter_sublist σ'.positions).map Prod.fst
    refine ⟨?_, ?_, ?_⟩
    · intro i hi
      rw [hrepos, hkeys] at hi
      exact hbd _ (hsub.subset hi)
    · rw [hrepos, hkeys]
      exact hnd.sublist hsub
    · rw [hrepos, hvals]
      have hperm1 := vals_perm_of_lookup hnd hp
      have hlen : σ'.positions.length =
          ((σ'.positions.filter fun e => e.1 ≠ id).map Prod.snd).length + 1 := by
        have := hperm1.length_eq
        simp only [List.length_cons, List.length_map] at this ⊢
        omega
      have hperm2 : (p :: (σ'.positions.filter fun e => e.1 ≠ id).map Prod.snd).Perm
          (List.range (((σ'.positions.filter fun e => e.1 ≠ id).map Prod.snd).length + 1)) :=
        hperm1.trans (hlen ▸ hperm)
      have hdec := dec_perm_range hperm2
      simpa [List.length_map] using hdec

/-- Rows after `n` straight creations (no closes), for `n ≤ 2^16`:
exactly `n−1, ..., 1, 0`. -/
theorem creates_closed_form : ∀ n : ℕ, n ≤ 2 ^ 16 →
    ((next_free_pos^[n]) ⟨0, []⟩).positions.map Prod.snd = (List.range n).reverse := by
  intro n
  induction n with
  | zero => intro _; rfl
  | succ k ih =>
    intro hle
    have hprev := ih (by omega)
    have hnext : nextPosOf ((next_free_pos^[k]) ⟨0, []⟩).positions = k := by
      unfold nextPosOf
      rw [hprev]
      cases k with
      | zero => rfl
      | succ j =>
        have h1 : j ∈ (List.range (j + 1)).reverse :=
          List.mem_reverse.mpr (List.mem_range.mpr (by omega))
        have h2 : ∀ x ∈ (List.range (j + 1)).reverse, x ≤ j := by
          intro x hx
          rw [List.mem_reverse, List.mem_range] at hx
          omega
        rw [maxVal_eq_of h1 h2]
        show (j + 1) % 2 ^ 16 = j + 1
        exact Nat.mod_eq_of_lt (by omega)
    rw [Function.iterate_succ_apply']
    simp only [next_free_pos, List.map_cons]
    rw [hprev, hnext, List.range_succ, List.reverse_append]
    rfl

theorem reach_iterate (n : ℕ) : Reach ((next_free_pos^[n]) ⟨0, []⟩) := by
  induction n with
  | zero => exact Reach.init
  | succ k ih =>
    rw [Function.iterate_succ_apply']
    exact Reach.create ih

/-- With all `2^16` rows occupied, the `u16` row counter wraps to 0. -/
theorem nextPosOf_full {l : Registry}
    (h : l.map Prod.snd = (List.range (2 ^ 16)).reverse) : nextPosOf l = 0 := by
  unfold nextPosOf
  rw [h]
  have h1 : 2 ^ 16 - 1 ∈ (List.range (2 ^ 16)).reverse :=
    List.mem_reverse.mpr (List.mem_range.mpr (by norm_num))
  have h2 : ∀ x ∈ (List.range (2 ^ 16)).reverse, x ≤ 2 ^ 16 - 1 := by
    intro x hx
    rw [List.mem_reverse, List.mem_range] at hx
    omega
  rw [maxVal_eq_of h1 h2]
  show (2 ^ 16 - 1 + 1) % 2 ^ 16 = 0
  norm_num

/-- The rows after a creation: the new row in front of the old ones. -/
theorem rows_after_create {σ : RegSt} {v : List ℕ} (h : σ.positions.map Prod.snd = v) :
    (next_free_pos σ).positions.map Prod.snd = nextPosOf σ.positions :: v := by
  simp only [next_free_pos, List.map_cons]
  rw [h]

/-- Counterexample to claim C1 as stated: `Pos` is `u16`, so after
`2^16 + 1` straight creations the newest bar's row has wrapped to 0 —
which is still held by a live bar — and the rows are no longer a
permutation of `{0..k−1}`.  (In debug builds the `n + 1` panics instead;
either way the claimed invariant is lost at `2^16` live bars.) -/
theorem C1_counterexample :
    Reach ((next_free_pos^[2 ^ 16 + 1]) ⟨0, []⟩) ∧
    ¬ ((((next_free_pos^[2 ^ 16 + 1]) ⟨0, []⟩).positions.map Prod.snd).Perm
        (List.range ((next_free_pos^[2 ^ 16 + 1]) ⟨0, []⟩).positions.length)) := by
  refine ⟨reach_iterate _, ?_⟩
  intro hperm
  have hprev := creates_closed_form (2 ^ 16) le_rfl
  have hrows : ((next_free_pos^[2 ^ 16 + 1]) ⟨0, []⟩).positions.map Prod.snd =
      0 :: (List.range (2 ^ 16)).reverse := by
    rw [Function.iterate_succ_apply', rows_after_create hprev, nextPosOf_full hprev]
  rw [hrows] at hperm
  have hnd : (0 :: (List.range (2 ^ 16)).reverse).Nodup :=
    hperm.symm.nodup (List.nodup_range _)
  have h0mem : 0 ∈ (List.range (2 ^ 16)).reverse :=
    List.mem_reverse.mpr (List.mem_range.mpr (by norm_num))
  exact (List.nodup_cons.mp hnd).1 h0mem

/-- Claim C1 (amended): for every interleaving of bar creations
(`next_free_pos`) and closes of live bars (`reposition`) in which each
creation happens with fewer than `2^16` bars live, the registry keeps one
row per live id (keys are unique) and the rows are exactly a permutation
of `{0, 1, ..., k−1}` for `k` live bars.  The cap is necessary: `Pos` is
`u16`, so the 65537th live bar wraps the row counter back to 0
(`C1_counterexample`). -/
theorem C1_rows_contiguous (σ : RegSt) (h : ReachCap σ) :
    (σ.positions.map Prod.fst).Nodup ∧
    (σ.positions.map Prod.snd).Perm (List.range σ.positions.length) :=
  ⟨(reach_inv h).2.1, (reach_inv h).2.2⟩

/-- Witness for C1: create two bars, close the first (exercising the
row decrement), create a third. -/
theorem C1_rows_contiguous_w :
    ReachCap (next_free_pos ⟨(next_free_pos (next_free_pos ⟨0, []⟩)).nextId,
      reposition 0 (next_free_pos (next_free_pos ⟨0, []⟩)).positions⟩) ∧
    (((next_free_pos ⟨(next_free_pos (next_free_pos ⟨0, []⟩)).nextId,
        reposition 0 (next_free_pos (next_free_pos ⟨0, []⟩)).positions⟩).positions.map
      Prod.fst).Nodup ∧
    ((next_free_pos ⟨(next_free_pos (next_free_pos ⟨0, []⟩)).nextId,
        reposition 0 (next_free_pos (next_free_pos ⟨0, []⟩)).positions⟩).positions.map
      Prod.snd).Perm (List.range (next_free_pos ⟨(next_free_pos (next_free_pos ⟨0, []⟩)).nextId,
        reposition 0 (next_free_pos (next_free_pos ⟨0, []⟩)).positions⟩).positions.length)) :=
  have hw : ReachCap (next_free_pos ⟨(next_free_pos (next_free_pos ⟨0, []⟩)).nextId,
      reposition 0 (next_free_pos (next_free_pos ⟨0, []⟩)).positions⟩) :=
    ReachCap.create (ReachCap.close (ReachCap.create (ReachCap.create ReachCap.init
      (by decide)) (by decide)) (by decide)) (by decide)
  ⟨hw, C1_rows_contiguous _ hw⟩
